import Mathlib

/-!
Verification of the resumable frontier crawler from `networks_project`
(`src/blockchain/account.py`, `src/scraper/utils.py`, `src/scraper/scraper.py`).

The Python program works on a heap of mutable `AccountNode` objects
(`address` string, `children` list of nodes).  We embed the heap as an
arena: a list of node records whose `children` fields hold arena indices.
Creating an `AccountNode` appends a record; `node.children = ...` is an
in-place update of one record.  Every arena the program builds satisfies
"each child index is strictly greater than its parent's index and within
bounds", since children are always allocated after their parent.
-/

/-- One `AccountNode` object (`account.py`): an address plus the list of
children, stored as arena indices. -/
structure NodeRec where
  address : String
  children : List Nat
deriving DecidableEq, Repr

/-- The heap of `AccountNode` objects, in allocation order. -/
abbrev Arena := List NodeRec

/-- Read `node.address` for the object at arena index `i`
(`""` for a dangling index, which the program never produces). -/
def address_at (a : Arena) (i : Nat) : String :=
  match a[i]? with
  | some n => n.address
  | none => ""

/-- The in-place assignment `node.children = cs` on the object at index `i`. -/
def set_children (a : Arena) (i : Nat) (cs : List Nat) : Arena :=
  match a[i]? with
  | some n => a.set i { n with children := cs }
  | none => a

/-- The serialized form of a tree produced by `serialize_graph` (`utils.py`):
the JSON dict `{"address": ..., "children": [...]}`. -/
inductive SerGraph where
  | mk (address : String) (children : List SerGraph)

def SerGraph.address : SerGraph → String
  | .mk a _ => a

def SerGraph.children : SerGraph → List SerGraph
  | .mk _ cs => cs

mutual

/-- All addresses occurring in a serialized tree, in depth-first
pre-order (root first, then children left to right). -/
def SerGraph.addresses : SerGraph → List String
  | .mk a cs => a :: SerGraph.addressesList cs

def SerGraph.addressesList : List SerGraph → List String
  | [] => []
  | t :: rest => t.addresses ++ SerGraph.addressesList rest

end

/-- `serialize_graph` (`utils.py` lines 4-8): read the object tree rooted at
arena index `i` into its JSON form.  The recursion into a child is guarded by
`i < j`; on every arena the program builds, children indices are strictly
larger than the parent index, so the guard is always true there, and it makes
the reading total on arbitrary arenas (where the Python recursion would
diverge only on heaps the program cannot create). -/
def serialize_graph (a : Arena) (i : Nat) : SerGraph :=
  match h : a[i]? with
  | none => .mk "" []
  | some n => .mk n.address (n.children.map fun j =>
      if hj : i < j then serialize_graph a j else .mk "" [])
termination_by a.length - i
decreasing_by
  have hi : i < a.length := by
    cases Nat.lt_or_ge i a.length with
    | inl h2 => exact h2
    | inr h2 => rw [List.getElem?_eq_none h2] at h; exact absurd h (by simp)
  omega

mutual

/-- `deserialize_graph` (`utils.py` lines 10-13): build a fresh object tree
from serialized data.  `AccountNode(address=...)` is the allocation of the
root record (children written after the children themselves are built, as in
the Python list comprehension). -/
def deserialize_graph : SerGraph → Arena → Arena × Nat
  | .mk addr cs, a =>
    let r := a.length
    let a1 := a ++ [⟨addr, []⟩]
    let p := deserialize_list cs a1
    (set_children p.1 r p.2, r)

/-- The list comprehension `[deserialize_graph(i) for i in data["children"]]`:
deserialize children in order, returning the arena and the child indices. -/
def deserialize_list : List SerGraph → Arena → Arena × List Nat
  | [], a => (a, [])
  | s :: rest, a =>
    let p := deserialize_graph s a
    let q := deserialize_list rest p.1
    (q.1, p.2 :: q.2)

end

-- ### The scraper state (scraper.py)

/-- One checkpoint file `step_d.json`: `{"root": ..., "frontier": [...]}`,
as written by `save_graph_state_to_json` (`utils.py` lines 15-21). -/
structure Checkpoint where
  root : SerGraph
  frontier : List String

/-- The checkpoint directory: which depths have a `step_d.json`, and with
what content. -/
abbrev Store := Nat → Option Checkpoint

/-- Writing `step_d.json` (`save_graph_state_to_json`). -/
def write_step (st : Store) (d : Nat) (c : Checkpoint) : Store :=
  fun d' => if d' = d then some c else st d'

/-- The token context (`blockchain/token.py` fields used by `scraper.py`). -/
structure Token where
  address : String
  minter : String
  minting_time : Int
  name : String
  image_link : String

/-- One transfer record returned by the API.  `to_address` is the value of
`transfer.get("to_address")`: `none` models a missing field or JSON null,
`some ""` an empty-string address. -/
structure Transfer where
  to_address : Option String
deriving DecidableEq, Repr

/-- The outcome of the HTTP call inside `fetch_transfers_for_address`
(`scraper.py` lines 122-128): either some exception was raised, or a
response with a status code and the parsed `data` list arrived. -/
inductive FetchOutcome where
  | exn
  | response (status : Nat) (data : List Transfer)

/-- The request parameters built by `fetch_transfers_for_address`
(`scraper.py` lines 105-120). -/
structure FetchRequest where
  address : String
  token : String
  block_time_start : Int
  block_time_end : Int
  page : Nat
  page_size : Nat

/-- The `params` dict of `fetch_transfers_for_address`: note the time window
`[minting_time - 24h, minting_time + 24h]`. -/
def fetch_request (token_address : String) (minting_time : Int)
    (address : String) : FetchRequest :=
  { address := address
    token := token_address
    block_time_start := minting_time - 60 * 60 * 24
    block_time_end := minting_time + 60 * 60 * 24
    page := 1
    page_size := 100 }

/-- Result handling of `fetch_transfers_for_address` (`scraper.py` lines
122-135): status 200 returns the data list, a non-200 status raises
`ConnectionError`, and every exception is caught and turned into `[]`. -/
def fetch_transfers_for_address : FetchOutcome → List Transfer
  | .exn => []
  | .response status data => if status = 200 then data else []

/-- The outcome is a failure: an exception or a non-success status. -/
def is_fetch_failure : FetchOutcome → Prop
  | .exn => True
  | .response status _ => status ≠ 200

/-- `TokenScraper._fallback_local_step0` (`scraper.py` lines 62-85), applied
to a successfully parsed `step_0.json`: the minter is the address of the
deserialized root, the minting time is set to `0`, name and image are
placeholders. -/
def _fallback_local_step0 (tok : Token) (step0 : Checkpoint) : Token :=
  { tok with
    minter := step0.root.address
    minting_time := 0
    name := "Unknown_" ++ (tok.address.take 4)
    image_link := "" }

/-- `get_unique_transfer_accounts` (`scraper.py` lines 137-144): collect the
truthy `to_address` values into a set.  The Python set is modelled as a
duplicate-free list in first-insertion order (Python's own iteration order
over a set is implementation-defined). -/
def get_unique_transfer_accounts (transfers : List Transfer) : List String :=
  transfers.foldl
    (fun addresses t =>
      match t.to_address with
      | some s => if s ≠ "" then (if s ∈ addresses then addresses else addresses ++ [s]) else addresses
      | none => addresses)
    []

/-- Allocate one fresh `AccountNode(addr)` per address, in order
(the loop `for addr in unique_addresses` of `process_node_children`). -/
def alloc_many : Arena → List String → Arena × List Nat
  | a, [] => (a, [])
  | a, addr :: rest =>
    let p := alloc_many (a ++ [⟨addr, []⟩]) rest
    (p.1, a.length :: p.2)

/-- `process_node_children` (`scraper.py` lines 146-157): fetch the node's
transfers (the network outcome is given by `oracle`), build one fresh child
node per unique destination address, and assign `node.children`. -/
def process_node_children (oracle : String → FetchOutcome) (a : Arena)
    (i : Nat) : Arena × List Nat :=
  match a[i]? with
  | none => (a, [])
  | some n =>
    let transfers := fetch_transfers_for_address (oracle n.address)
    let unique_addresses := get_unique_transfer_accounts transfers
    let p := alloc_many a unique_addresses
    (set_children p.1 i p.2, p.2)

/-- The fresh-depth loop of `run_scraper` (lines 213-217): process each
frontier node in order, collecting all new children. -/
def expand_frontier (oracle : String → FetchOutcome) :
    Arena → List Nat → Arena × List Nat
  | a, [] => (a, [])
  | a, i :: rest =>
    let p := process_node_children oracle a i
    let q := expand_frontier oracle p.1 rest
    (q.1, p.2 ++ q.2)

/-- The loop of `count_total_nodes` (`scraper.py` lines 159-170).  The Python
stack pops from the back and `extend`s children at the back; here the stack
is kept top-first, so a pop is the head and `extend(children)` pushes the
children reversed.  `visited` is the set of already-counted addresses. -/
def count_loop (a : Arena) (stack : List Nat) (visited : List String)
    (count : Nat) : Nat :=
  match stack with
  | [] => count
  | i :: rest =>
    match h : a[i]? with
    | none => count_loop a rest visited count
    | some n =>
      if n.address ∈ visited then count_loop a rest visited count
      else count_loop a (n.children.reverse ++ rest) (n.address :: visited) (count + 1)
termination_by (((a.map (·.address)).toFinset \ visited.toFinset).card, stack.length)
decreasing_by
  · apply Prod.Lex.right
    simp
  · apply Prod.Lex.right
    simp
  · rename_i hnv
    apply Prod.Lex.left
    obtain ⟨hlt, heq⟩ := List.getElem?_eq_some_iff.mp h
    have hmem : n ∈ a := heq ▸ List.getElem_mem hlt
    have h1 : n.address ∈ (a.map (·.address)).toFinset := by
      rw [List.mem_toFinset, List.mem_map]
      exact ⟨n, hmem, rfl⟩
    have h2 : n.address ∉ visited.toFinset := by
      rw [List.mem_toFinset]
      exact hnv
    rw [List.toFinset_cons, Finset.sdiff_insert]
    exact Finset.card_erase_lt_of_mem (Finset.mem_sdiff.mpr ⟨h1, h2⟩)

/-- `count_total_nodes` (`scraper.py` lines 159-170). -/
def count_total_nodes (a : Arena) (root : Nat) : Nat :=
  count_loop a [root] [] 0

/-- The loop of `_nodes_by_addresses` (`scraper.py` lines 236-250): same
address-keyed depth-first traversal, collecting (in visit order) each node
whose address belongs to `addr_set`. -/
def nodes_by_loop (a : Arena) (addr_set : List String) (stack : List Nat)
    (visited : List String) (result : List Nat) : List Nat :=
  match stack with
  | [] => result
  | i :: rest =>
    match h : a[i]? with
    | none => nodes_by_loop a addr_set rest visited result
    | some n =>
      if n.address ∈ visited then nodes_by_loop a addr_set rest visited result
      else
        nodes_by_loop a addr_set (n.children.reverse ++ rest)
          (n.address :: visited)
          (if n.address ∈ addr_set then result ++ [i] else result)
termination_by (((a.map (·.address)).toFinset \ visited.toFinset).card, stack.length)
decreasing_by
  · apply Prod.Lex.right
    simp
  · apply Prod.Lex.right
    simp
  · rename_i hnv
    apply Prod.Lex.left
    obtain ⟨hlt, heq⟩ := List.getElem?_eq_some_iff.mp h
    have hmem : n ∈ a := heq ▸ List.getElem_mem hlt
    have h1 : n.address ∈ (a.map (·.address)).toFinset := by
      rw [List.mem_toFinset, List.mem_map]
      exact ⟨n, hmem, rfl⟩
    have h2 : n.address ∉ visited.toFinset := by
      rw [List.mem_toFinset]
      exact hnv
    rw [List.toFinset_cons, Finset.sdiff_insert]
    exact Finset.card_erase_lt_of_mem (Finset.mem_sdiff.mpr ⟨h1, h2⟩)

/-- `_nodes_by_addresses` (`scraper.py` lines 236-250). -/
def _nodes_by_addresses (a : Arena) (root : Nat) (addresses : List String) :
    List Nat :=
  nodes_by_loop a addresses [root] [] []

/-- What one invocation of the `step_callback` receives (`run_scraper`
lines 227-234).  The live `root` reference is recorded as its serialized
snapshot. -/
structure StepEvent where
  depth : Nat
  root_snapshot : SerGraph
  total_nodes : Nat
  frontier_count : Nat

/-- The in-memory state of one `run_scraper` call: the heap, `self.root`,
`current_frontier` (indices of live nodes), the checkpoint directory, the
number of transfer-fetch invocations so far, and the observer calls made so
far. -/
structure RunState where
  arena : Arena
  root : Nat
  frontier : List Nat
  store : Store
  fetch_count : Nat
  events : List StepEvent

/-- `run_scraper` lines 185-199: `self.root = AccountNode(token.minter)` was
allocated in `__init__` (line 101); if `step_0.json` is absent it is created
with `frontier = [root.address]`, otherwise it is loaded and the loaded tree
replaces `self.root` (the frontier list stored in `step_0.json` is read but
not used).  Afterwards `current_frontier = [self.root]`. -/
def init_state (minter : String) (st : Store) : RunState :=
  let a0 : Arena := [⟨minter, []⟩]
  match st 0 with
  | none =>
    let st' := write_step st 0 ⟨serialize_graph a0 0, [minter]⟩
    ⟨a0, 0, [0], st', 0, []⟩
  | some c =>
    let p := deserialize_graph c.root a0
    ⟨p.1, p.2, [p.2], st, 0, []⟩

/-- One iteration of the depth loop of `run_scraper` (lines 201-234):
either load `step_d.json` (no fetches) and resolve its frontier by address
search, or expand the current frontier (one fetch per frontier node) and
persist the result; in both cases invoke the observer. -/
def step_depth (oracle : String → FetchOutcome) (s : RunState) (d : Nat) :
    RunState :=
  match s.store d with
  | some c =>
    let p := deserialize_graph c.root s.arena
    let fr := _nodes_by_addresses p.1 p.2 c.frontier
    { arena := p.1
      root := p.2
      frontier := fr
      store := s.store
      fetch_count := s.fetch_count
      events := s.events ++
        [⟨d, serialize_graph p.1 p.2, count_total_nodes p.1 p.2, fr.length⟩] }
  | none =>
    let p := expand_frontier oracle s.arena s.frontier
    let addresses_frontier := p.2.map (address_at p.1)
    let st' := write_step s.store d ⟨serialize_graph p.1 s.root, addresses_frontier⟩
    { arena := p.1
      root := s.root
      frontier := p.2
      store := st'
      fetch_count := s.fetch_count + s.frontier.length
      events := s.events ++
        [⟨d, serialize_graph p.1 s.root, count_total_nodes p.1 s.root, p.2.length⟩] }

/-- `run_scraper` (`scraper.py` lines 172-234): initialization, then the
depth loop `for depth in range(1, max_steps + 1)`. -/
def run_scraper (oracle : String → FetchOutcome) (minter : String)
    (max_steps : Nat) (st : Store) : RunState :=
  (List.range' 1 max_steps).foldl (step_depth oracle) (init_state minter st)

/-- Well-formedness of an arena: every child index points past its parent
and into the arena.  Every heap the Python program builds satisfies this,
because children are always allocated after their parent. -/
def Arena.WF (a : Arena) : Prop :=
  ∀ pr ∈ a.enum, ∀ j ∈ pr.2.children, pr.1 < j ∧ j < a.length

instance (a : Arena) : Decidable a.WF := by
  unfold Arena.WF
  infer_instance


-- ### Basic lemmas about the arena and serialization

theorem address_at_append_left (a b : Arena) (i : Nat) (h : i < a.length) :
    address_at (a ++ b) i = address_at a i := by
  simp [address_at, List.getElem?_append_left h]

theorem set_children_length (a : Arena) (i : Nat) (cs : List Nat) :
    (set_children a i cs).length = a.length := by
  unfold set_children
  cases h : a[i]? <;> simp

theorem set_children_getElem?_ne (a : Arena) (i j : Nat) (cs : List Nat)
    (hne : j ≠ i) : (set_children a i cs)[j]? = a[j]? := by
  unfold set_children
  cases h : a[i]? <;> simp [List.getElem?_set_ne (Ne.symm hne)]

/-- Unfolding of `serialize_graph` on a dangling index. -/
theorem serialize_graph_none {a : Arena} {i : Nat} (h : a[i]? = none) :
    serialize_graph a i = .mk "" [] := by
  rw [serialize_graph]
  split <;> simp_all

/-- Unfolding of `serialize_graph` on a live index. -/
theorem serialize_graph_some {a : Arena} {i : Nat} {n : NodeRec}
    (h : a[i]? = some n) :
    serialize_graph a i = .mk n.address (n.children.map fun j =>
      if i < j then serialize_graph a j else .mk "" []) := by
  rw [serialize_graph]
  split
  · simp_all
  · rename_i n' h'
    rw [h] at h'
    cases h'
    rfl

/-- `serialize_graph` only reads arena cells at indices `≥ i`:
if two arenas agree there, the serializations agree. -/
theorem serialize_graph_congr :
    ∀ (k : Nat) (a a' : Arena) (i : Nat), a.length - i ≤ k →
      (∀ j, i ≤ j → a[j]? = a'[j]?) →
      serialize_graph a i = serialize_graph a' i := by
  intro k
  induction k with
  | zero =>
    intro a a' i hk hag
    have hi : a.length ≤ i := by omega
    have h1 : a[i]? = none := List.getElem?_eq_none hi
    have h2 : a'[i]? = none := by rw [← hag i (Nat.le_refl i)]; exact h1
    rw [serialize_graph_none h1, serialize_graph_none h2]
  | succ m ih =>
    intro a a' i hk hag
    cases h : a[i]? with
    | none =>
      have h2 : a'[i]? = none := by rw [← hag i (Nat.le_refl i)]; exact h
      rw [serialize_graph_none h, serialize_graph_none h2]
    | some n =>
      have h2 : a'[i]? = some n := by rw [← hag i (Nat.le_refl i)]; exact h
      have hi : i < a.length := by
        cases Nat.lt_or_ge i a.length with
        | inl h3 => exact h3
        | inr h3 => rw [List.getElem?_eq_none h3] at h; exact absurd h (by simp)
      rw [serialize_graph_some h, serialize_graph_some h2]
      congr 1
      apply List.map_congr_left
      intro j _
      by_cases hij : i < j
      · simp only [if_pos hij]
        exact ih a a' j (by omega) (fun t ht => hag t (by omega))
      · simp [hij]

theorem set_children_getElem?_self {a : Arena} {i : Nat} {n : NodeRec}
    (h : a[i]? = some n) (cs : List Nat) :
    (set_children a i cs)[i]? = some { n with children := cs } := by
  have hi : i < a.length := by
    cases Nat.lt_or_ge i a.length with
    | inl h3 => exact h3
    | inr h3 => rw [List.getElem?_eq_none h3] at h; exact absurd h (by simp)
  unfold set_children
  rw [h]
  simp [List.getElem?_set_self, hi]

mutual

/-- `deserialize_graph s a` allocates the root at index `a.length`, only
appends to the arena, and the fresh subtree reads back (by `serialize_graph`)
as exactly `s`, whatever is appended to the arena afterwards. -/
theorem deserialize_graph_spec (s : SerGraph) (a : Arena) :
    (deserialize_graph s a).2 = a.length ∧
    (∃ ext, ext ≠ [] ∧ (deserialize_graph s a).1 = a ++ ext) ∧
    (∀ b, serialize_graph ((deserialize_graph s a).1 ++ b) a.length = s) := by
  match s with
  | .mk addr cs =>
    have hl := deserialize_list_spec cs (a ++ [⟨addr, []⟩])
    obtain ⟨⟨ext1, hext1⟩, hlen, hbound, hser⟩ := hl
    unfold deserialize_graph
    set p := deserialize_list cs (a ++ [⟨addr, []⟩]) with hp
    have hroot : p.1[a.length]? = some ⟨addr, []⟩ := by
      rw [hext1, List.append_assoc]
      rw [List.getElem?_append_right (Nat.le_refl a.length)]
      simp
    refine ⟨rfl, ⟨⟨addr, p.2⟩ :: ext1, by simp, ?_⟩, ?_⟩
    · show set_children p.1 a.length p.2 = a ++ (⟨addr, p.2⟩ :: ext1)
      unfold set_children
      rw [hroot]
      show p.1.set a.length ⟨addr, p.2⟩ = a ++ (⟨addr, p.2⟩ :: ext1)
      rw [hext1, List.append_assoc, List.set_append_right _ _ (Nat.le_refl a.length)]
      simp
    · intro b
      show serialize_graph (set_children p.1 a.length p.2 ++ b) a.length = _
      set A := set_children p.1 a.length p.2 with hA
      have hAlen : A.length = p.1.length := set_children_length _ _ _
      have hplen : a.length < p.1.length := by
        rw [hext1]; simp
      have hAr : (A ++ b)[a.length]? = some ⟨addr, p.2⟩ := by
        rw [List.getElem?_append_left (by omega)]
        exact set_children_getElem?_self hroot p.2
      rw [serialize_graph_some hAr]
      have hmap : (p.2.map fun j =>
          if a.length < j then serialize_graph (A ++ b) j else .mk "" []) =
          p.2.map fun j => serialize_graph (p.1 ++ b) j := by
        apply List.map_congr_left
        intro j hj
        have hjb : a.length + 1 ≤ j := by
          have := hbound j hj; simpa using this
        rw [if_pos (by omega)]
        apply serialize_graph_congr ((A ++ b).length) _ _ j (by omega)
        intro t ht
        by_cases htl : t < A.length
        · rw [List.getElem?_append_left htl, List.getElem?_append_left (by omega)]
          exact set_children_getElem?_ne _ _ _ _ (by omega)
        · rw [List.getElem?_append_right (by omega),
            List.getElem?_append_right (by omega), hAlen]
      rw [hmap, hser b]

/-- `deserialize_list` only appends, returns one fresh index per input tree,
all of them at or past the old arena end, and they read back as the inputs. -/
theorem deserialize_list_spec (ss : List SerGraph) (a : Arena) :
    (∃ ext, (deserialize_list ss a).1 = a ++ ext) ∧
    (deserialize_list ss a).2.length = ss.length ∧
    (∀ i ∈ (deserialize_list ss a).2, a.length ≤ i) ∧
    (∀ b, ((deserialize_list ss a).2.map fun r =>
        serialize_graph ((deserialize_list ss a).1 ++ b) r) = ss) := by
  match ss with
  | [] =>
    refine ⟨⟨[], by simp [deserialize_list]⟩, by simp [deserialize_list],
      by simp [deserialize_list], by simp [deserialize_list]⟩
  | s :: rest =>
    have hg := deserialize_graph_spec s a
    obtain ⟨hgr, ⟨ext1, hne1, hext1⟩, hgser⟩ := hg
    have hl := deserialize_list_spec rest (deserialize_graph s a).1
    obtain ⟨⟨ext2, hext2⟩, hllen, hlbound, hlser⟩ := hl
    unfold deserialize_list
    set p := deserialize_graph s a with hp
    set q := deserialize_list rest p.1 with hq
    have hq1 : q.1 = a ++ (ext1 ++ ext2) := by
      rw [← List.append_assoc, ← hext1, hext2]
    refine ⟨⟨ext1 ++ ext2, hq1⟩, by simpa using hllen, ?_, ?_⟩
    · intro i hi
      rcases List.mem_cons.mp hi with h | h
      · omega
      · have := hlbound i h
        have : a.length ≤ p.1.length := by rw [hext1]; simp
        omega
    · intro b
      simp only [List.map_cons]
      refine List.cons_eq_cons.mpr ⟨?_, ?_⟩
      · show serialize_graph (q.1 ++ b) p.2 = s
        rw [hgr]
        have hqb : q.1 ++ b = p.1 ++ (ext2 ++ b) := by
          rw [hext2, List.append_assoc]
        rw [hqb]
        exact hgser (ext2 ++ b)
      · exact hlser b

end

theorem Arena.WF.child {a : Arena} (hwf : a.WF) {i : Nat} {n : NodeRec}
    (h : a[i]? = some n) {j : Nat} (hj : j ∈ n.children) :
    i < j ∧ j < a.length :=
  hwf (i, n) (List.mk_mem_enum_iff_getElem?.mpr h) j hj

-- ### Unfolding lemmas for the depth-first loops

theorem count_loop_nil (a : Arena) (v : List String) (c : Nat) :
    count_loop a [] v c = c := by
  rw [count_loop]

theorem count_loop_cons_none {a : Arena} {i : Nat} (rest : List Nat)
    (v : List String) (c : Nat) (h : a[i]? = none) :
    count_loop a (i :: rest) v c = count_loop a rest v c := by
  rw [count_loop]
  split <;> simp_all

theorem count_loop_cons_some {a : Arena} {i : Nat} {n : NodeRec}
    (rest : List Nat) (v : List String) (c : Nat) (h : a[i]? = some n) :
    count_loop a (i :: rest) v c =
      if n.address ∈ v then count_loop a rest v c
      else count_loop a (n.children.reverse ++ rest) (n.address :: v) (c + 1) := by
  rw [count_loop]
  split
  · simp_all
  · rename_i n' h'
    rw [h] at h'
    cases h'
    rfl

theorem nodes_by_loop_nil (a : Arena) (s : List String) (v : List String)
    (res : List Nat) : nodes_by_loop a s [] v res = res := by
  rw [nodes_by_loop]

theorem nodes_by_loop_cons_none {a : Arena} {i : Nat} (s : List String)
    (rest : List Nat) (v : List String) (res : List Nat) (h : a[i]? = none) :
    nodes_by_loop a s (i :: rest) v res = nodes_by_loop a s rest v res := by
  rw [nodes_by_loop]
  split <;> simp_all

theorem nodes_by_loop_cons_some {a : Arena} {i : Nat} {n : NodeRec}
    (s : List String) (rest : List Nat) (v : List String) (res : List Nat)
    (h : a[i]? = some n) :
    nodes_by_loop a s (i :: rest) v res =
      if n.address ∈ v then nodes_by_loop a s rest v res
      else nodes_by_loop a s (n.children.reverse ++ rest) (n.address :: v)
        (if n.address ∈ s then res ++ [i] else res) := by
  rw [nodes_by_loop]
  split
  · simp_all
  · rename_i n' h'
    rw [h] at h'
    cases h'
    rfl

-- ### C2: serialization round trip

/-- C2.  For every tree of `AccountNode`s (the object tree rooted at index
`i` of heap `a`), deserializing its serialization yields a tree with the
same address, the same number of children and the same child order at every
level (its `serialize_graph` reading is the same `SerGraph`), and the
structure is freshly built: the new root is the fresh index `a.length` and
the original heap is only extended, so no node of the original tree is
reused. -/
theorem c2_serialize_deserialize_round_trip (a : Arena) (i : Nat) :
    serialize_graph (deserialize_graph (serialize_graph a i) a).1
        (deserialize_graph (serialize_graph a i) a).2 = serialize_graph a i ∧
    (deserialize_graph (serialize_graph a i) a).2 = a.length ∧
    ∃ ext, ext ≠ [] ∧ (deserialize_graph (serialize_graph a i) a).1 = a ++ ext := by
  obtain ⟨h1, h2, h3⟩ := deserialize_graph_spec (serialize_graph a i) a
  refine ⟨?_, h1, h2⟩
  have h4 := h3 []
  rw [List.append_nil] at h4
  rw [h1]
  exact h4

-- ### C4: fetch failures return an empty list

/-- C4.  For every failure of the transfer fetch (an exception, or a non-200
response), `fetch_transfers_for_address` returns the empty list; being a
total function into `List Transfer`, it never propagates an exception. -/
theorem c4_fetch_failure_returns_empty (o : FetchOutcome)
    (h : is_fetch_failure o) : fetch_transfers_for_address o = [] := by
  cases o with
  | exn => rfl
  | response status data =>
    have hs : status ≠ 200 := h
    simp [fetch_transfers_for_address, hs]

theorem c4_witness :
    is_fetch_failure (FetchOutcome.response 500 []) ∧
    fetch_transfers_for_address (FetchOutcome.response 500 []) = [] := by
  have hf : is_fetch_failure (FetchOutcome.response 500 []) := by
    simp [is_fetch_failure]
  exact ⟨hf, c4_fetch_failure_returns_empty _ hf⟩

-- ### C9: the degraded-metadata fallback and the fetch window

/-- C9 (amended).  The fallback sets the minter from the persisted depth-0
root and the minting time to `0`; every subsequent fetch request then uses
the fixed window `[-86400, 86400]` around the Unix epoch — a 48-hour
window, not a single instant. -/
theorem c9_fallback_zero_time_window (tok : Token) (cp : Checkpoint)
    (addr : String) :
    (_fallback_local_step0 tok cp).minter = cp.root.address ∧
    (_fallback_local_step0 tok cp).minting_time = 0 ∧
    (fetch_request (_fallback_local_step0 tok cp).address
        (_fallback_local_step0 tok cp).minting_time addr).block_time_start = -86400 ∧
    (fetch_request (_fallback_local_step0 tok cp).address
        (_fallback_local_step0 tok cp).minting_time addr).block_time_end = 86400 := by
  refine ⟨rfl, rfl, ?_, ?_⟩ <;> simp [fetch_request, _fallback_local_step0]

/-- C9 is false as stated: after the fallback the fetch window is not
collapsed to a single instant — its two endpoints differ (by 48 hours). -/
theorem c9_counterexample :
    (fetch_request "tok"
        (_fallback_local_step0 ⟨"tok", "m", 5, "n", "i"⟩ ⟨.mk "M" [], []⟩).minting_time
        "addr").block_time_start ≠
      (fetch_request "tok"
        (_fallback_local_step0 ⟨"tok", "m", 5, "n", "i"⟩ ⟨.mk "M" [], []⟩).minting_time
        "addr").block_time_end := by
  simp [fetch_request, _fallback_local_step0]

-- ### C10: get_unique_transfer_accounts

theorem get_unique_foldl_spec (ts : List Transfer) :
    ∀ acc : List String,
      (acc.Nodup → (ts.foldl
        (fun addresses t =>
          match t.to_address with
          | some s => if s ≠ "" then (if s ∈ addresses then addresses else addresses ++ [s]) else addresses
          | none => addresses) acc).Nodup) ∧
      (∀ x, x ∈ ts.foldl
        (fun addresses t =>
          match t.to_address with
          | some s => if s ≠ "" then (if s ∈ addresses then addresses else addresses ++ [s]) else addresses
          | none => addresses) acc ↔
        x ∈ acc ∨ ((∃ t ∈ ts, t.to_address = some x) ∧ x ≠ "")) := by
  induction ts with
  | nil => intro acc; simp
  | cons t ts ih =>
    intro acc
    simp only [List.foldl_cons]
    cases h : t.to_address with
    | none =>
      simp only [h]
      constructor
      · exact fun hn => ((ih acc).1 hn)
      · intro x
        rw [(ih acc).2 x]
        constructor
        · rintro (hx | ⟨⟨u, hu, hux⟩, hne⟩)
          · exact Or.inl hx
          · exact Or.inr ⟨⟨u, List.mem_cons.mpr (Or.inr hu), hux⟩, hne⟩
        · rintro (hx | ⟨⟨u, hu, hux⟩, hne⟩)
          · exact Or.inl hx
          · rcases List.mem_cons.mp hu with rfl | hu'
            · rw [h] at hux; cases hux
            · exact Or.inr ⟨⟨u, hu', hux⟩, hne⟩
    | some s =>
      simp only [h]
      by_cases hs : s = ""
      · subst hs
        simp only [ne_eq, not_true_eq_false, if_false]
        constructor
        · exact fun hn => ((ih acc).1 hn)
        · intro x
          rw [(ih acc).2 x]
          constructor
          · rintro (hx | ⟨⟨u, hu, hux⟩, hne⟩)
            · exact Or.inl hx
            · exact Or.inr ⟨⟨u, List.mem_cons.mpr (Or.inr hu), hux⟩, hne⟩
          · rintro (hx | ⟨⟨u, hu, hux⟩, hne⟩)
            · exact Or.inl hx
            · rcases List.mem_cons.mp hu with rfl | hu'
              · rw [h] at hux; cases hux; simp at hne
              · exact Or.inr ⟨⟨u, hu', hux⟩, hne⟩
      · simp only [ne_eq, hs, not_false_eq_true, if_true]
        by_cases hmem : s ∈ acc
        · simp only [hmem, if_true]
          constructor
          · exact fun hn => ((ih acc).1 hn)
          · intro x
            rw [(ih acc).2 x]
            constructor
            · rintro (hx | ⟨⟨u, hu, hux⟩, hne⟩)
              · exact Or.inl hx
              · exact Or.inr ⟨⟨u, List.mem_cons.mpr (Or.inr hu), hux⟩, hne⟩
            · rintro (hx | ⟨⟨u, hu, hux⟩, hne⟩)
              · exact Or.inl hx
              · rcases List.mem_cons.mp hu with rfl | hu'
                · rw [h] at hux; cases hux; exact Or.inl hmem
                · exact Or.inr ⟨⟨u, hu', hux⟩, hne⟩
        · simp only [hmem, if_false]
          constructor
          · intro hn
            apply (ih (acc ++ [s])).1
            simp [List.nodup_append, hn, hmem]
          · intro x
            rw [(ih (acc ++ [s])).2 x]
            simp only [List.mem_append, List.mem_singleton]
            constructor
            · rintro ((hx | rfl) | ⟨⟨u, hu, hux⟩, hne⟩)
              · exact Or.inl hx
              · exact Or.inr ⟨⟨t, List.mem_cons.mpr (Or.inl rfl), h⟩, hs⟩
              · exact Or.inr ⟨⟨u, List.mem_cons.mpr (Or.inr hu), hux⟩, hne⟩
            · rintro (hx | ⟨⟨u, hu, hux⟩, hne⟩)
              · exact Or.inl (Or.inl hx)
              · rcases List.mem_cons.mp hu with rfl | hu'
                · rw [h] at hux; cases hux; exact Or.inl (Or.inr rfl)
                · exact Or.inr ⟨⟨u, hu', hux⟩, hne⟩

/-- C10.  `get_unique_transfer_accounts` returns a duplicate-free list, and
an address is in it exactly when some record's `to_address` field holds it
and it is non-empty — records with a missing, null (`none`) or empty-string
destination are excluded. -/
theorem c10_unique_transfer_accounts (ts : List Transfer) :
    (get_unique_transfer_accounts ts).Nodup ∧
    (∀ x, x ∈ get_unique_transfer_accounts ts ↔
      (∃ t ∈ ts, t.to_address = some x) ∧ x ≠ "") := by
  have h := get_unique_foldl_spec ts []
  refine ⟨h.1 List.nodup_nil, fun x => ?_⟩
  have h2 := h.2 x
  simp only [List.mem_nil_iff, false_or] at h2
  exact h2

-- ### Frontier expansion (for C6 and the run lemmas)

theorem address_at_set_children (a : Arena) (k : Nat) (cs : List Nat)
    (j : Nat) : address_at (set_children a k cs) j = address_at a j := by
  by_cases hjk : j = k
  · subst hjk
    cases h : a[j]? with
    | none =>
      unfold set_children
      rw [h]
    | some n =>
      unfold address_at
      rw [set_children_getElem?_self h, h]
  · unfold address_at
    rw [set_children_getElem?_ne a k j cs hjk]

theorem alloc_many_spec (addrs : List String) : ∀ a : Arena,
    (alloc_many a addrs).1 = a ++ addrs.map (fun s => (⟨s, []⟩ : NodeRec)) ∧
    (alloc_many a addrs).2 = List.range' a.length addrs.length := by
  induction addrs with
  | nil => intro a; simp [alloc_many]
  | cons addr rest ih =>
    intro a
    obtain ⟨h1, h2⟩ := ih (a ++ [⟨addr, []⟩])
    unfold alloc_many
    refine ⟨?_, ?_⟩
    · show (alloc_many (a ++ [⟨addr, []⟩]) rest).1 = _
      rw [h1]
      simp
    · show a.length :: (alloc_many (a ++ [⟨addr, []⟩]) rest).2 = _
      rw [h2]
      simp [List.range'_succ]

theorem range'_map_address_at (u : List String) : ∀ a : Arena,
    (List.range' a.length u.length).map
      (address_at (a ++ u.map fun s => (⟨s, []⟩ : NodeRec))) = u := by
  induction u with
  | nil => intro a; simp
  | cons s u ih =>
    intro a
    rw [List.length_cons, List.range'_succ, List.map_cons]
    refine List.cons_eq_cons.mpr ⟨?_, ?_⟩
    · unfold address_at
      rw [List.getElem?_append_right (Nat.le_refl a.length)]
      simp
    · have hsplit : a ++ (s :: u).map (fun x => (⟨x, []⟩ : NodeRec)) =
          (a ++ [⟨s, []⟩]) ++ u.map fun x => (⟨x, []⟩ : NodeRec) := by
        simp
      have hlen : a.length + 1 = (a ++ [(⟨s, []⟩ : NodeRec)]).length := by
        simp
      rw [hsplit, hlen]
      exact ih (a ++ [⟨s, []⟩])

theorem process_node_children_eq (oracle : String → FetchOutcome)
    {a : Arena} {i : Nat} {n : NodeRec} (h : a[i]? = some n) :
    process_node_children oracle a i =
      (set_children
        (alloc_many a (get_unique_transfer_accounts
          (fetch_transfers_for_address (oracle n.address)))).1 i
        (alloc_many a (get_unique_transfer_accounts
          (fetch_transfers_for_address (oracle n.address)))).2,
       (alloc_many a (get_unique_transfer_accounts
          (fetch_transfers_for_address (oracle n.address)))).2) := by
  unfold process_node_children
  rw [h]

theorem process_node_children_spec (oracle : String → FetchOutcome)
    {a : Arena} {i : Nat} {n : NodeRec} (h : a[i]? = some n) :
    (process_node_children oracle a i).2 =
      List.range' a.length
        (get_unique_transfer_accounts
          (fetch_transfers_for_address (oracle n.address))).length ∧
    (process_node_children oracle a i).1 =
      set_children
        (a ++ (get_unique_transfer_accounts
          (fetch_transfers_for_address (oracle n.address))).map
            fun s => (⟨s, []⟩ : NodeRec))
        i
        (List.range' a.length
          (get_unique_transfer_accounts
            (fetch_transfers_for_address (oracle n.address))).length) := by
  obtain ⟨h1, h2⟩ := alloc_many_spec
    (get_unique_transfer_accounts (fetch_transfers_for_address (oracle n.address))) a
  rw [process_node_children_eq oracle h]
  exact ⟨h2, by rw [h1, h2]⟩

theorem process_node_children_length (oracle : String → FetchOutcome)
    (a : Arena) (i : Nat) :
    a.length ≤ (process_node_children oracle a i).1.length := by
  cases h : a[i]? with
  | none =>
    unfold process_node_children
    rw [h]
  | some n =>
    obtain ⟨h1, h2⟩ := process_node_children_spec oracle h
    rw [h2, set_children_length]
    simp

theorem process_node_children_address_at (oracle : String → FetchOutcome)
    (a : Arena) (i : Nat) (j : Nat) (hj : j < a.length) :
    address_at (process_node_children oracle a i).1 j = address_at a j := by
  cases h : a[i]? with
  | none =>
    unfold process_node_children
    rw [h]
  | some n =>
    obtain ⟨h1, h2⟩ := process_node_children_spec oracle h
    rw [h2, address_at_set_children, address_at_append_left _ _ _ hj]

theorem process_node_children_new_addresses (oracle : String → FetchOutcome)
    {a : Arena} {i : Nat} {n : NodeRec} (h : a[i]? = some n) :
    (process_node_children oracle a i).2.map
        (address_at (process_node_children oracle a i).1) =
      get_unique_transfer_accounts (fetch_transfers_for_address (oracle n.address)) := by
  obtain ⟨h1, h2⟩ := process_node_children_spec oracle h
  rw [h1, h2]
  have hm : (List.range' a.length
      (get_unique_transfer_accounts
        (fetch_transfers_for_address (oracle n.address))).length).map
      (address_at (set_children
        (a ++ (get_unique_transfer_accounts
          (fetch_transfers_for_address (oracle n.address))).map
            fun s => (⟨s, []⟩ : NodeRec)) i
        (List.range' a.length
          (get_unique_transfer_accounts
            (fetch_transfers_for_address (oracle n.address))).length))) =
      (List.range' a.length
        (get_unique_transfer_accounts
          (fetch_transfers_for_address (oracle n.address))).length).map
        (address_at (a ++ (get_unique_transfer_accounts
          (fetch_transfers_for_address (oracle n.address))).map
            fun s => (⟨s, []⟩ : NodeRec))) := by
    apply List.map_congr_left
    intro j _
    rw [address_at_set_children]
  rw [hm, range'_map_address_at]

theorem process_node_children_new_bound (oracle : String → FetchOutcome)
    {a : Arena} {i : Nat} :
    ∀ j ∈ (process_node_children oracle a i).2,
      a.length ≤ j ∧ j < (process_node_children oracle a i).1.length := by
  intro j hj
  cases h : a[i]? with
  | none =>
    unfold process_node_children at hj
    rw [h] at hj
    simp at hj
  | some n =>
    obtain ⟨h1, h2⟩ := process_node_children_spec oracle h
    rw [h1] at hj
    rw [h2, set_children_length]
    obtain ⟨k, hk, rfl⟩ := List.mem_range'.mp hj
    simp
    omega

theorem expand_frontier_spec (oracle : String → FetchOutcome) :
    ∀ (frontier : List Nat) (a : Arena),
      (∀ i ∈ frontier, i < a.length) →
      a.length ≤ (expand_frontier oracle a frontier).1.length ∧
      (∀ j, j < a.length →
        address_at (expand_frontier oracle a frontier).1 j = address_at a j) ∧
      (∀ i ∈ (expand_frontier oracle a frontier).2,
        i < (expand_frontier oracle a frontier).1.length) ∧
      (expand_frontier oracle a frontier).2.map
          (address_at (expand_frontier oracle a frontier).1) =
        frontier.flatMap (fun i =>
          get_unique_transfer_accounts
            (fetch_transfers_for_address (oracle (address_at a i)))) := by
  intro frontier
  induction frontier with
  | nil =>
    intro a _
    simp [expand_frontier]
  | cons i rest ih =>
    intro a hvalid
    have hi : i < a.length := hvalid i (List.mem_cons.mpr (Or.inl rfl))
    have hnode : a[i]? = some a[i] := List.getElem?_eq_getElem hi
    unfold expand_frontier
    obtain ⟨hqlen, hqaddr, hqb, hqmap⟩ :=
      ih (process_node_children oracle a i).1
        (fun j hj => Nat.lt_of_lt_of_le
          (Nat.lt_of_lt_of_le (hvalid j (List.mem_cons.mpr (Or.inr hj)))
            (process_node_children_length oracle a i))
          (Nat.le_refl _))
    have hplen := process_node_children_length oracle a i
    refine ⟨Nat.le_trans hplen hqlen, ?_, ?_, ?_⟩
    · intro j hj
      rw [hqaddr j (Nat.lt_of_lt_of_le hj hplen)]
      exact process_node_children_address_at oracle a i j hj
    · intro j hj
      rcases List.mem_append.mp hj with hjp | hjq
      · exact Nat.lt_of_lt_of_le
          ((process_node_children_new_bound oracle j hjp).2) hqlen
      · exact hqb j hjq
    · show ((process_node_children oracle a i).2 ++
          (expand_frontier oracle (process_node_children oracle a i).1 rest).2).map _ = _
      rw [List.map_append]
      rw [List.flatMap_cons]
      have hfirst : (process_node_children oracle a i).2.map
          (address_at (expand_frontier oracle (process_node_children oracle a i).1 rest).1) =
          (process_node_children oracle a i).2.map
            (address_at (process_node_children oracle a i).1) := by
        apply List.map_congr_left
        intro j hj
        exact hqaddr j ((process_node_children_new_bound oracle j hj).2)
      rw [hfirst, process_node_children_new_addresses oracle hnode]
      have haddri : address_at a i = a[i].address := by
        unfold address_at
        rw [hnode]
      rw [haddri]
      congr 1
      rw [hqmap]
      apply List.flatMap_congr
      intro j hj
      rw [process_node_children_address_at oracle a i j
        (hvalid j (List.mem_cons.mpr (Or.inr hj)))]

-- ### Unfolding the two branches of the depth loop

theorem step_depth_fresh (oracle : String → FetchOutcome) (s : RunState)
    (d : Nat) (h : s.store d = none) :
    step_depth oracle s d =
      { arena := (expand_frontier oracle s.arena s.frontier).1
        root := s.root
        frontier := (expand_frontier oracle s.arena s.frontier).2
        store := write_step s.store d
          ⟨serialize_graph (expand_frontier oracle s.arena s.frontier).1 s.root,
           (expand_frontier oracle s.arena s.frontier).2.map
             (address_at (expand_frontier oracle s.arena s.frontier).1)⟩
        fetch_count := s.fetch_count + s.frontier.length
        events := s.events ++
          [⟨d, serialize_graph (expand_frontier oracle s.arena s.frontier).1 s.root,
            count_total_nodes (expand_frontier oracle s.arena s.frontier).1 s.root,
            (expand_frontier oracle s.arena s.frontier).2.length⟩] } := by
  unfold step_depth
  rw [h]

theorem step_depth_skip (oracle : String → FetchOutcome) (s : RunState)
    (d : Nat) {c : Checkpoint} (h : s.store d = some c) :
    step_depth oracle s d =
      { arena := (deserialize_graph c.root s.arena).1
        root := (deserialize_graph c.root s.arena).2
        frontier := _nodes_by_addresses (deserialize_graph c.root s.arena).1
          (deserialize_graph c.root s.arena).2 c.frontier
        store := s.store
        fetch_count := s.fetch_count
        events := s.events ++
          [⟨d, serialize_graph (deserialize_graph c.root s.arena).1
              (deserialize_graph c.root s.arena).2,
            count_total_nodes (deserialize_graph c.root s.arena).1
              (deserialize_graph c.root s.arena).2,
            (_nodes_by_addresses (deserialize_graph c.root s.arena).1
              (deserialize_graph c.root s.arena).2 c.frontier).length⟩] } := by
  unfold step_depth
  rw [h]

-- ### C6: frontier correctness on a fresh expansion

/-- C6.  On a freshly expanded depth `d` (no checkpoint on disk), the address
list of the new frontier is exactly the concatenation, over the
current-frontier nodes in order, of the unique destination addresses
extracted from each node's fetched transfers (deduplicated per source node
by `get_unique_transfer_accounts`), and the same list is the frontier
written into the depth-`d` checkpoint.  In particular the new frontier's
address set is the union of the per-node unique destination sets. -/
theorem c6_frontier_correctness (oracle : String → FetchOutcome)
    (s : RunState) (d : Nat) (hfresh : s.store d = none)
    (hvalid : ∀ i ∈ s.frontier, i < s.arena.length) :
    (step_depth oracle s d).frontier.map
        (address_at (step_depth oracle s d).arena) =
      s.frontier.flatMap (fun i =>
        get_unique_transfer_accounts
          (fetch_transfers_for_address (oracle (address_at s.arena i)))) ∧
    (step_depth oracle s d).store d = some
      ⟨serialize_graph (step_depth oracle s d).arena s.root,
       s.frontier.flatMap (fun i =>
         get_unique_transfer_accounts
           (fetch_transfers_for_address (oracle (address_at s.arena i))))⟩ := by
  obtain ⟨h1, h2, h3, h4⟩ := expand_frontier_spec oracle s.frontier s.arena hvalid
  rw [step_depth_fresh oracle s d hfresh]
  refine ⟨h4, ?_⟩
  show write_step s.store d _ d = _
  unfold write_step
  rw [if_pos rfl, h4]

theorem c6_witness :
    ((⟨[⟨"M", []⟩], 0, [0], fun _ => none, 0, []⟩ : RunState).store 1 = none) ∧
    (∀ i ∈ (⟨[⟨"M", []⟩], 0, [0], fun _ => none, 0, []⟩ : RunState).frontier,
      i < (⟨[⟨"M", []⟩], 0, [0], fun _ => none, 0, []⟩ : RunState).arena.length) ∧
    ((step_depth (fun _ => FetchOutcome.response 200 [⟨some "A"⟩, ⟨some "B"⟩, ⟨some "A"⟩])
        ⟨[⟨"M", []⟩], 0, [0], fun _ => none, 0, []⟩ 1).frontier.map
      (address_at (step_depth (fun _ => FetchOutcome.response 200 [⟨some "A"⟩, ⟨some "B"⟩, ⟨some "A"⟩])
        ⟨[⟨"M", []⟩], 0, [0], fun _ => none, 0, []⟩ 1).arena) =
      (⟨[⟨"M", []⟩], 0, [0], fun _ => none, 0, []⟩ : RunState).frontier.flatMap (fun i =>
        get_unique_transfer_accounts
          (fetch_transfers_for_address
            ((fun _ => FetchOutcome.response 200 [⟨some "A"⟩, ⟨some "B"⟩, ⟨some "A"⟩])
              (address_at (⟨[⟨"M", []⟩], 0, [0], fun _ => none, 0, []⟩ : RunState).arena i))))) := by
  refine ⟨rfl, by decide, ?_⟩
  exact (c6_frontier_correctness _ _ 1 rfl (by decide)).1

-- ### Initialization (run_scraper lines 185-199) and C7

theorem init_state_absent (minter : String) (st : Store) (h : st 0 = none) :
    init_state minter st =
      ⟨[⟨minter, []⟩], 0, [0],
       write_step st 0 ⟨serialize_graph [⟨minter, []⟩] 0, [minter]⟩, 0, []⟩ := by
  unfold init_state
  rw [h]

theorem init_state_present (minter : String) (st : Store) {c : Checkpoint}
    (h : st 0 = some c) :
    init_state minter st =
      ⟨(deserialize_graph c.root [⟨minter, []⟩]).1,
       (deserialize_graph c.root [⟨minter, []⟩]).2,
       [(deserialize_graph c.root [⟨minter, []⟩]).2], st, 0, []⟩ := by
  unfold init_state
  rw [h]

theorem serialize_graph_singleton (m : String) :
    serialize_graph [⟨m, []⟩] 0 = .mk m [] := by
  rw [serialize_graph_some (n := ⟨m, []⟩) rfl]
  simp

theorem step_depth_store_other (oracle : String → FetchOutcome)
    (s : RunState) (d d' : Nat) (h : d' ≠ d) :
    (step_depth oracle s d).store d' = s.store d' := by
  cases hc : s.store d with
  | some c => rw [step_depth_skip oracle s d hc]
  | none =>
    rw [step_depth_fresh oracle s d hc]
    show write_step s.store d _ d' = s.store d'
    unfold write_step
    rw [if_neg h]

theorem foldl_store_preserved (oracle : String → FetchOutcome) :
    ∀ (ds : List Nat) (s : RunState) (d' : Nat), (∀ d ∈ ds, d' ≠ d) →
      ((ds.foldl (step_depth oracle) s).store d') = s.store d' := by
  intro ds
  induction ds with
  | nil => intro s d' _; rfl
  | cons d ds ih =>
    intro s d' hne
    rw [List.foldl_cons]
    rw [ih (step_depth oracle s d) d' (fun e he => hne e (List.mem_cons.mpr (Or.inr he)))]
    exact step_depth_store_other oracle s d d' (hne d (List.mem_cons.mpr (Or.inl rfl)))

/-- C7 (amended).  At crawl start: if `step_0.json` is absent it is created,
exactly once for the whole run, with the single-node crawl root and
`frontier = [root.address]`; if it is present, the loaded tree replaces the
in-memory root (even when it has more than one node: its serialized reading
equals the stored tree).  In both cases the working frontier is the
singleton `[self.root]` — the frontier list stored in `step_0.json` is
ignored, so it agrees with the resolved depth-0 frontier exactly when that
stored list is `[root.address]`. -/
theorem c7_init_state (minter : String) (st : Store) :
    (st 0 = none →
      (init_state minter st).store 0 = some ⟨.mk minter [], [minter]⟩ ∧
      (init_state minter st).frontier = [(init_state minter st).root] ∧
      address_at (init_state minter st).arena (init_state minter st).root = minter) ∧
    (∀ c, st 0 = some c →
      serialize_graph (init_state minter st).arena (init_state minter st).root = c.root ∧
      (init_state minter st).frontier = [(init_state minter st).root] ∧
      (init_state minter st).store = st) ∧
    (∀ (oracle : String → FetchOutcome) (max_steps : Nat),
      (run_scraper oracle minter max_steps st).store 0 =
        (init_state minter st).store 0) := by
  refine ⟨?_, ?_, ?_⟩
  · intro h
    rw [init_state_absent minter st h]
    refine ⟨?_, rfl, rfl⟩
    show write_step st 0 _ 0 = _
    unfold write_step
    rw [if_pos rfl, serialize_graph_singleton]
  · intro c h
    rw [init_state_present minter st h]
    obtain ⟨h1, _, h3⟩ := deserialize_graph_spec c.root [⟨minter, []⟩]
    refine ⟨?_, rfl, rfl⟩
    show serialize_graph (deserialize_graph c.root [⟨minter, []⟩]).1
      (deserialize_graph c.root [⟨minter, []⟩]).2 = c.root
    have h4 := h3 []
    rw [List.append_nil] at h4
    rw [h1]
    exact h4
  · intro oracle max_steps
    unfold run_scraper
    apply foldl_store_preserved
    intro d hd
    obtain ⟨k, hk, rfl⟩ := List.mem_range'.mp hd
    omega

theorem c7_witness :
    ((fun _ => none : Store) 0 = none) ∧
    ((init_state "M" (fun _ => none : Store)).store 0 =
      some ⟨.mk "M" [], ["M"]⟩) ∧
    ((fun d => if d = 0 then some ⟨.mk "M" [.mk "B" []], ["B"]⟩ else none : Store) 0 =
      some ⟨.mk "M" [.mk "B" []], ["B"]⟩) ∧
    (serialize_graph
        (init_state "M" (fun d => if d = 0 then some ⟨.mk "M" [.mk "B" []], ["B"]⟩ else none)).arena
        (init_state "M" (fun d => if d = 0 then some ⟨.mk "M" [.mk "B" []], ["B"]⟩ else none)).root =
      .mk "M" [.mk "B" []]) := by
  refine ⟨rfl, ((c7_init_state "M" _).1 rfl).1, rfl, ?_⟩
  exact ((c7_init_state "M"
    (fun d => if d = 0 then some ⟨.mk "M" [.mk "B" []], ["B"]⟩ else none)).2.1
    ⟨.mk "M" [.mk "B" []], ["B"]⟩ rfl).1

/-- C7 is false as stated on the clause "the working frontier is then the
depth-0 frontier": for a depth-0 checkpoint whose tree is `M → B` and whose
stored frontier list is `["B"]`, the working frontier after loading is the
loaded root (address `M`), not the tree node resolved from the stored
frontier list (address `B`). -/
theorem c7_counterexample :
    (init_state "M" (fun d => if d = 0 then some ⟨.mk "M" [.mk "B" []], ["B"]⟩ else none)).frontier.map
      (address_at (init_state "M" (fun d => if d = 0 then some ⟨.mk "M" [.mk "B" []], ["B"]⟩ else none)).arena) ≠
    (_nodes_by_addresses
        (init_state "M" (fun d => if d = 0 then some ⟨.mk "M" [.mk "B" []], ["B"]⟩ else none)).arena
        (init_state "M" (fun d => if d = 0 then some ⟨.mk "M" [.mk "B" []], ["B"]⟩ else none)).root
        ["B"]).map
      (address_at (init_state "M" (fun d => if d = 0 then some ⟨.mk "M" [.mk "B" []], ["B"]⟩ else none)).arena) := by
  have ha : (init_state "M" (fun d => if d = 0 then some ⟨.mk "M" [.mk "B" []], ["B"]⟩ else none)).arena =
      [⟨"M", []⟩, ⟨"M", [2]⟩, ⟨"B", []⟩] := by rfl
  have hr : (init_state "M" (fun d => if d = 0 then some ⟨.mk "M" [.mk "B" []], ["B"]⟩ else none)).root = 1 := by rfl
  have hf : (init_state "M" (fun d => if d = 0 then some ⟨.mk "M" [.mk "B" []], ["B"]⟩ else none)).frontier = [1] := by rfl
  rw [ha, hr, hf]
  have hn : _nodes_by_addresses [⟨"M", []⟩, ⟨"M", [2]⟩, ⟨"B", []⟩] 1 ["B"] = [2] := by
    unfold _nodes_by_addresses
    rw [nodes_by_loop_cons_some (n := ⟨"M", [2]⟩) _ _ _ _ rfl]
    rw [if_neg (by simp), if_neg (by simp)]
    show nodes_by_loop [⟨"M", []⟩, ⟨"M", [2]⟩, ⟨"B", []⟩] ["B"] [2] ["M"] [] = [2]
    rw [nodes_by_loop_cons_some (n := ⟨"B", []⟩) _ _ _ _ rfl]
    rw [if_neg (by simp), if_pos (by simp)]
    show nodes_by_loop [⟨"M", []⟩, ⟨"M", [2]⟩, ⟨"B", []⟩] ["B"] [] ["B", "M"] [2] = [2]
    rw [nodes_by_loop_nil]
  rw [hn]
  simp [address_at]

-- ### SerGraph address lemmas

theorem SerGraph.addresses_mk (addr : String) (cs : List SerGraph) :
    (SerGraph.mk addr cs).addresses = addr :: SerGraph.addressesList cs := rfl

theorem SerGraph.mem_addressesList {ts : List SerGraph} {t : SerGraph}
    (ht : t ∈ ts) {x : String} (hx : x ∈ t.addresses) :
    x ∈ SerGraph.addressesList ts := by
  induction ts with
  | nil => cases ht
  | cons u us ih =>
    show x ∈ u.addresses ++ SerGraph.addressesList us
    rcases List.mem_cons.mp ht with rfl | ht'
    · exact List.mem_append.mpr (Or.inl hx)
    · exact List.mem_append.mpr (Or.inr (ih ht'))

theorem addressesList_map_serialize (a : Arena) :
    ∀ js : List Nat,
      SerGraph.addressesList (js.map (serialize_graph a)) =
        js.flatMap fun j => (serialize_graph a j).addresses := by
  intro js
  induction js with
  | nil => rfl
  | cons j js ih =>
    show (serialize_graph a j).addresses ++ _ = _
    rw [List.flatMap_cons, ih]

/-- Under well-formedness, the serialization of node `i` lists `i`'s own
address first and contains every address of every child's subtree. -/
theorem ser_children_map {a : Arena} (hwf : a.WF) {i : Nat} {n : NodeRec}
    (h : a[i]? = some n) :
    serialize_graph a i = .mk n.address (n.children.map (serialize_graph a)) := by
  rw [serialize_graph_some h]
  congr 1
  apply List.map_congr_left
  intro j hj
  rw [if_pos (hwf.child h hj).1]

theorem ser_child_addresses_subset {a : Arena} (hwf : a.WF) {i : Nat}
    {n : NodeRec} (h : a[i]? = some n) {j : Nat} (hj : j ∈ n.children) :
    ∀ x ∈ (serialize_graph a j).addresses, x ∈ (serialize_graph a i).addresses := by
  intro x hx
  rw [ser_children_map hwf h, SerGraph.addresses_mk]
  refine List.mem_cons.mpr (Or.inr ?_)
  exact SerGraph.mem_addressesList (List.mem_map.mpr ⟨j, hj, rfl⟩) hx

-- ### C8: resolving a checkpoint frontier by address search

theorem nodes_by_loop_spec (a : Arena) (hwf : a.WF) (addrs : List String)
    (S : List String) :
    ∀ stack visited res,
      (∀ i ∈ stack, ∀ x ∈ (serialize_graph a i).addresses, x ∈ S) →
      (∀ j ∈ res, ∃ n, a[j]? = some n ∧ n.address ∈ addrs ∧ n.address ∈ S) →
      (∀ j ∈ nodes_by_loop a addrs stack visited res,
        ∃ n, a[j]? = some n ∧ n.address ∈ addrs ∧ n.address ∈ S) := by
  intro stack visited res
  induction stack, visited, res using nodes_by_loop.induct a addrs with
  | case1 visited res =>
    intro _ hres
    rw [nodes_by_loop_nil]
    exact hres
  | case2 visited res i rest h ih =>
    intro hsub hres
    rw [nodes_by_loop_cons_none _ _ _ _ h]
    exact ih (fun t ht => hsub t (List.mem_cons.mpr (Or.inr ht))) hres
  | case3 visited res i rest n h hv ih =>
    intro hsub hres
    rw [nodes_by_loop_cons_some _ _ _ _ h, if_pos hv]
    exact ih (fun t ht => hsub t (List.mem_cons.mpr (Or.inr ht))) hres
  | case4 visited res i rest n h hv ih =>
    intro hsub hres
    rw [nodes_by_loop_cons_some _ _ _ _ h, if_neg hv]
    apply ih
    · intro t ht x hx
      rcases List.mem_append.mp ht with htc | htr
      · exact hsub i (List.mem_cons.mpr (Or.inl rfl)) x
          (ser_child_addresses_subset hwf h (List.mem_reverse.mp htc) x hx)
      · exact hsub t (List.mem_cons.mpr (Or.inr htr)) x hx
    · intro j hj
      by_cases hmem : n.address ∈ addrs
      · rw [dif_pos hmem] at hj
        rcases List.mem_append.mp hj with hj' | hj'
        · exact hres j hj'
        · have hji : j = i := by simpa using hj'
          subst hji
          refine ⟨n, h, hmem, ?_⟩
          apply hsub j (List.mem_cons.mpr (Or.inl rfl))
          rw [ser_children_map hwf h, SerGraph.addresses_mk]
          exact List.mem_cons.mpr (Or.inl rfl)
      · rw [dif_neg hmem] at hj
        exact hres j hj

/-- C8.  When a checkpoint exists at depth `d`, the crawler's new working
frontier is exactly `_nodes_by_addresses` applied to the just-loaded tree
and the checkpoint's frontier address list; every resolved node carries an
address that is both in that list and among the addresses of the loaded
tree (`c.root`) — an address in the list but absent from the tree resolves
to nothing and is silently dropped. -/
theorem c8_checkpoint_frontier_resolution (oracle : String → FetchOutcome)
    (s : RunState) (d : Nat) (c : Checkpoint) (hc : s.store d = some c)
    (hwf : Arena.WF (deserialize_graph c.root s.arena).1) :
    (step_depth oracle s d).frontier =
      _nodes_by_addresses (deserialize_graph c.root s.arena).1
        (deserialize_graph c.root s.arena).2 c.frontier ∧
    (∀ j ∈ (step_depth oracle s d).frontier,
      ∃ n, (step_depth oracle s d).arena[j]? = some n ∧
        n.address ∈ c.frontier ∧ n.address ∈ c.root.addresses) := by
  rw [step_depth_skip oracle s d hc]
  refine ⟨rfl, ?_⟩
  obtain ⟨h1, _, h3⟩ := deserialize_graph_spec c.root s.arena
  have hser : serialize_graph (deserialize_graph c.root s.arena).1
      (deserialize_graph c.root s.arena).2 = c.root := by
    have h4 := h3 []
    rw [List.append_nil] at h4
    rw [h1]
    exact h4
  intro j hj
  have := nodes_by_loop_spec (deserialize_graph c.root s.arena).1 hwf c.frontier
    c.root.addresses [(deserialize_graph c.root s.arena).2] [] []
    (by
      intro t ht x hx
      rcases List.mem_cons.mp ht with rfl | h'
      · rw [hser] at hx
        exact hx
      · cases h')
    (by intro t ht; cases ht)
    j hj
  exact this

theorem c8_witness :
    ((⟨[⟨"R", []⟩], 0, [0],
        (fun d => if d = 1 then some ⟨.mk "M" [.mk "B" []], ["B", "X"]⟩ else none), 0, []⟩ :
      RunState).store 1 = some ⟨.mk "M" [.mk "B" []], ["B", "X"]⟩) ∧
    Arena.WF (deserialize_graph (SerGraph.mk "M" [.mk "B" []])
      (⟨[⟨"R", []⟩], 0, [0],
        (fun d => if d = 1 then some ⟨.mk "M" [.mk "B" []], ["B", "X"]⟩ else none), 0, []⟩ :
        RunState).arena).1 ∧
    (∀ j ∈ (step_depth (fun _ => FetchOutcome.exn)
        (⟨[⟨"R", []⟩], 0, [0],
          (fun d => if d = 1 then some ⟨.mk "M" [.mk "B" []], ["B", "X"]⟩ else none), 0, []⟩ :
          RunState) 1).frontier,
      ∃ n, (step_depth (fun _ => FetchOutcome.exn)
        (⟨[⟨"R", []⟩], 0, [0],
          (fun d => if d = 1 then some ⟨.mk "M" [.mk "B" []], ["B", "X"]⟩ else none), 0, []⟩ :
          RunState) 1).arena[j]? = some n ∧
        n.address ∈ ["B", "X"] ∧ n.address ∈ (SerGraph.mk "M" [.mk "B" []]).addresses) := by
  refine ⟨rfl, by decide, ?_⟩
  exact (c8_checkpoint_frontier_resolution (fun _ => FetchOutcome.exn) _ 1
    ⟨.mk "M" [.mk "B" []], ["B", "X"]⟩ rfl (by decide)).2

-- ### C5: the distinct-node count

theorem count_loop_nodup (a : Arena) (hwf : a.WF) :
    ∀ stack visited c,
      (∀ i ∈ stack, i < a.length) →
      (stack.flatMap fun i => (serialize_graph a i).addresses).Nodup →
      (∀ x ∈ stack.flatMap fun i => (serialize_graph a i).addresses, x ∉ visited) →
      count_loop a stack visited c =
        c + (stack.flatMap fun i => (serialize_graph a i).addresses).length := by
  intro stack visited c
  induction stack, visited, c using count_loop.induct a with
  | case1 v c =>
    intro _ _ _
    rw [count_loop_nil]
    simp
  | case2 v c i rest h ih =>
    intro hval _ _
    have h1 : a.length ≤ i := List.getElem?_eq_none_iff.mp h
    have h2 : i < a.length := hval i (List.mem_cons.mpr (Or.inl rfl))
    omega
  | case3 v c i rest n h hvmem ih =>
    intro hval hnd hdisj
    have hmem : n.address ∈ (i :: rest).flatMap fun t => (serialize_graph a t).addresses := by
      rw [List.flatMap_cons]
      apply List.mem_append.mpr (Or.inl _)
      rw [ser_children_map hwf h, SerGraph.addresses_mk]
      exact List.mem_cons.mpr (Or.inl rfl)
    exact absurd hvmem (hdisj _ hmem)
  | case4 v c i rest n h hnv ih =>
    intro hval hnd hdisj
    rw [count_loop_cons_some _ _ _ h, if_neg hnv]
    have hFi : (serialize_graph a i).addresses =
        n.address :: n.children.flatMap fun j => (serialize_graph a j).addresses := by
      rw [ser_children_map hwf h, SerGraph.addresses_mk, addressesList_map_serialize]
    have hold : (i :: rest).flatMap (fun t => (serialize_graph a t).addresses) =
        n.address :: (n.children.flatMap (fun j => (serialize_graph a j).addresses) ++
          rest.flatMap fun t => (serialize_graph a t).addresses) := by
      rw [List.flatMap_cons, hFi, List.cons_append]
    have hperm : List.Perm
        ((n.children.reverse ++ rest).flatMap fun t => (serialize_graph a t).addresses)
        (n.children.flatMap (fun j => (serialize_graph a j).addresses) ++
          rest.flatMap fun t => (serialize_graph a t).addresses) := by
      rw [List.flatMap_append]
      exact List.Perm.append_right _
        ((List.reverse_perm n.children).flatMap_right _)
    rw [hold] at hnd hdisj
    have hndtail : (n.children.flatMap (fun j => (serialize_graph a j).addresses) ++
        rest.flatMap fun t => (serialize_graph a t).addresses).Nodup :=
      (List.nodup_cons.mp hnd).2
    have hhead : n.address ∉ (n.children.flatMap (fun j => (serialize_graph a j).addresses) ++
        rest.flatMap fun t => (serialize_graph a t).addresses) :=
      (List.nodup_cons.mp hnd).1
    have hrec := ih
      (by
        intro t ht
        rcases List.mem_append.mp ht with htc | htr
        · exact (hwf.child h (List.mem_reverse.mp htc)).2
        · exact hval t (List.mem_cons.mpr (Or.inr htr)))
      (hperm.symm.nodup hndtail)
      (by
        intro x hx
        have hxt := hperm.mem_iff.mp hx
        intro hxv
        rcases List.mem_cons.mp hxv with rfl | hxv'
        · exact hhead hxt
        · exact hdisj x (List.mem_cons.mpr (Or.inr hxt)) hxv')
    rw [hrec, hperm.length_eq, hold]
    simp
    omega

/-- C5 (amended).  Whenever no address occurs twice in the tree reachable
from `root`, `count_total_nodes` returns the number of distinct addresses
reachable from `root` (on such trees this also equals the number of nodes).
Without that restriction the claim fails: the address-keyed depth-first
traversal skips the whole subtree of a node whose address was already
visited, so a repeated address carrying different children can hide
reachable addresses (see the counterexample). -/
theorem c5_count_total_nodes_nodup (a : Arena) (hwf : a.WF) (root : Nat)
    (hroot : root < a.length)
    (hnodup : (serialize_graph a root).addresses.Nodup) :
    count_total_nodes a root = (serialize_graph a root).addresses.dedup.length := by
  unfold count_total_nodes
  have h := count_loop_nodup a hwf [root] [] 0
    (by intro i hi; rcases List.mem_cons.mp hi with rfl | hi'; exact hroot; cases hi')
    (by simpa using hnodup)
    (by intro x _ hx; cases hx)
  rw [h]
  rw [List.Nodup.dedup hnodup]
  simp

theorem c5_witness :
    Arena.WF [⟨"M", [1, 2]⟩, ⟨"B", [3]⟩, ⟨"C", []⟩, ⟨"D", []⟩] ∧
    (0 : Nat) < 4 ∧
    (serialize_graph [⟨"M", [1, 2]⟩, ⟨"B", [3]⟩, ⟨"C", []⟩, ⟨"D", []⟩] 0).addresses.Nodup ∧
    count_total_nodes [⟨"M", [1, 2]⟩, ⟨"B", [3]⟩, ⟨"C", []⟩, ⟨"D", []⟩] 0 =
      (serialize_graph [⟨"M", [1, 2]⟩, ⟨"B", [3]⟩, ⟨"C", []⟩, ⟨"D", []⟩] 0).addresses.dedup.length ∧
    count_total_nodes [⟨"M", [1, 2]⟩, ⟨"B", [3]⟩, ⟨"C", []⟩, ⟨"D", []⟩] 0 = 4 := by
  have e3 : serialize_graph [⟨"M", [1, 2]⟩, ⟨"B", [3]⟩, ⟨"C", []⟩, ⟨"D", []⟩] 3 = .mk "D" [] := by
    rw [serialize_graph_some (n := ⟨"D", []⟩) rfl]
    simp
  have e2 : serialize_graph [⟨"M", [1, 2]⟩, ⟨"B", [3]⟩, ⟨"C", []⟩, ⟨"D", []⟩] 2 = .mk "C" [] := by
    rw [serialize_graph_some (n := ⟨"C", []⟩) rfl]
    simp
  have e1 : serialize_graph [⟨"M", [1, 2]⟩, ⟨"B", [3]⟩, ⟨"C", []⟩, ⟨"D", []⟩] 1 =
      .mk "B" [.mk "D" []] := by
    rw [serialize_graph_some (n := ⟨"B", [3]⟩) rfl]
    simp [e3]
  have e0 : serialize_graph [⟨"M", [1, 2]⟩, ⟨"B", [3]⟩, ⟨"C", []⟩, ⟨"D", []⟩] 0 =
      .mk "M" [.mk "B" [.mk "D" []], .mk "C" []] := by
    rw [serialize_graph_some (n := ⟨"M", [1, 2]⟩) rfl]
    simp [e1, e2]
  have hwf : Arena.WF [⟨"M", [1, 2]⟩, ⟨"B", [3]⟩, ⟨"C", []⟩, ⟨"D", []⟩] := by decide
  have hnodup : (serialize_graph [⟨"M", [1, 2]⟩, ⟨"B", [3]⟩, ⟨"C", []⟩, ⟨"D", []⟩] 0).addresses.Nodup := by
    rw [e0]
    decide
  have hmain := c5_count_total_nodes_nodup _ hwf 0 (by decide) hnodup
  refine ⟨hwf, by decide, hnodup, hmain, ?_⟩
  rw [hmain, e0]
  decide

/-- C5 is false as stated: in the tree `M → [A → [Z], A]` (the same address
`A` on two branches with different children), the reported count is 2 — the
pop order visits the childless `A` first and then skips the other `A`'s
subtree, so `Z` is never counted — while the number of distinct addresses
reachable from the root is 3 (`M`, `A`, `Z`). -/
theorem c5_counterexample :
    count_total_nodes [⟨"M", [1, 2]⟩, ⟨"A", [3]⟩, ⟨"A", []⟩, ⟨"Z", []⟩] 0 ≠
      (serialize_graph [⟨"M", [1, 2]⟩, ⟨"A", [3]⟩, ⟨"A", []⟩, ⟨"Z", []⟩] 0).addresses.dedup.length := by
  have e3 : serialize_graph [⟨"M", [1, 2]⟩, ⟨"A", [3]⟩, ⟨"A", []⟩, ⟨"Z", []⟩] 3 = .mk "Z" [] := by
    rw [serialize_graph_some (n := ⟨"Z", []⟩) rfl]
    simp
  have e2 : serialize_graph [⟨"M", [1, 2]⟩, ⟨"A", [3]⟩, ⟨"A", []⟩, ⟨"Z", []⟩] 2 = .mk "A" [] := by
    rw [serialize_graph_some (n := ⟨"A", []⟩) rfl]
    simp
  have e1 : serialize_graph [⟨"M", [1, 2]⟩, ⟨"A", [3]⟩, ⟨"A", []⟩, ⟨"Z", []⟩] 1 =
      .mk "A" [.mk "Z" []] := by
    rw [serialize_graph_some (n := ⟨"A", [3]⟩) rfl]
    simp [e3]
  have e0 : serialize_graph [⟨"M", [1, 2]⟩, ⟨"A", [3]⟩, ⟨"A", []⟩, ⟨"Z", []⟩] 0 =
      .mk "M" [.mk "A" [.mk "Z" []], .mk "A" []] := by
    rw [serialize_graph_some (n := ⟨"M", [1, 2]⟩) rfl]
    simp [e1, e2]
  have hc : count_total_nodes [⟨"M", [1, 2]⟩, ⟨"A", [3]⟩, ⟨"A", []⟩, ⟨"Z", []⟩] 0 = 2 := by
    unfold count_total_nodes
    rw [count_loop_cons_some (n := ⟨"M", [1, 2]⟩) _ _ _ rfl, if_neg (by simp)]
    show count_loop [⟨"M", [1, 2]⟩, ⟨"A", [3]⟩, ⟨"A", []⟩, ⟨"Z", []⟩] [2, 1] ["M"] 1 = 2
    rw [count_loop_cons_some (n := ⟨"A", []⟩) _ _ _ rfl, if_neg (by simp)]
    show count_loop [⟨"M", [1, 2]⟩, ⟨"A", [3]⟩, ⟨"A", []⟩, ⟨"Z", []⟩] [1] ["A", "M"] 2 = 2
    rw [count_loop_cons_some (n := ⟨"A", [3]⟩) _ _ _ rfl, if_pos (by simp)]
    show count_loop [⟨"M", [1, 2]⟩, ⟨"A", [3]⟩, ⟨"A", []⟩, ⟨"Z", []⟩] [] ["A", "M"] 2 = 2
    rw [count_loop_nil]
  rw [hc, e0]
  decide

-- ### C1: resumability of a completed run

theorem foldl_skip_run (oracle : String → FetchOutcome) :
    ∀ (ds : List Nat) (s : RunState),
      (∀ d ∈ ds, ((s.store d).isSome : Prop)) →
      (ds.foldl (step_depth oracle) s).store = s.store ∧
      (ds.foldl (step_depth oracle) s).fetch_count = s.fetch_count ∧
      serialize_graph (ds.foldl (step_depth oracle) s).arena
          (ds.foldl (step_depth oracle) s).root =
        (match ds.getLast? with
         | none => serialize_graph s.arena s.root
         | some d => ((s.store d).getD ⟨.mk "" [], []⟩).root) := by
  intro ds
  induction ds using List.reverseRecOn with
  | nil =>
    intro s _
    exact ⟨rfl, rfl, rfl⟩
  | append_singleton ds d ih =>
    intro s hpop
    obtain ⟨ihst, ihfc, ihser⟩ := ih s
      (fun e he => hpop e (List.mem_append.mpr (Or.inl he)))
    rw [List.foldl_append, List.foldl_cons, List.foldl_nil]
    obtain ⟨c, hc⟩ := Option.isSome_iff_exists.mp
      (hpop d (List.mem_append.mpr (Or.inr (List.mem_singleton.mpr rfl))))
    have hc' : (ds.foldl (step_depth oracle) s).store d = some c := by
      rw [ihst]
      exact hc
    rw [step_depth_skip oracle _ d hc']
    refine ⟨ihst, ihfc, ?_⟩
    obtain ⟨h1, _, h3⟩ := deserialize_graph_spec c.root (ds.foldl (step_depth oracle) s).arena
    have h4 := h3 []
    rw [List.append_nil] at h4
    show serialize_graph (deserialize_graph c.root _).1 (deserialize_graph c.root _).2 =
      (match (ds ++ [d]).getLast? with
       | none => serialize_graph s.arena s.root
       | some d => ((s.store d).getD ⟨.mk "" [], []⟩).root)
    rw [List.getLast?_concat, h1, h4]
    show c.root = ((s.store d).getD ⟨.mk "" [], []⟩).root
    rw [hc]
    rfl

theorem run_scraper_succ (oracle : String → FetchOutcome) (minter : String)
    (k : Nat) (st : Store) :
    run_scraper oracle minter (k + 1) st =
      step_depth oracle (run_scraper oracle minter k st) (k + 1) := by
  unfold run_scraper
  rw [List.range'_1_concat, List.foldl_append, List.foldl_cons, List.foldl_nil,
    Nat.add_comm 1 k]

theorem run_scraper_populates (oracle : String → FetchOutcome) (minter : String) :
    ∀ (k : Nat) (st : Store),
      (∀ d, d ≤ k → (((run_scraper oracle minter k st).store d).isSome : Prop)) ∧
      serialize_graph (run_scraper oracle minter k st).arena
          (run_scraper oracle minter k st).root =
        (((run_scraper oracle minter k st).store k).getD ⟨.mk "" [], []⟩).root := by
  intro k
  induction k with
  | zero =>
    intro st
    show (∀ d, d ≤ 0 → (((init_state minter st).store d).isSome : Prop)) ∧
      serialize_graph (init_state minter st).arena (init_state minter st).root =
        (((init_state minter st).store 0).getD ⟨.mk "" [], []⟩).root
    cases hc : st 0 with
    | none =>
      rw [init_state_absent minter st hc]
      constructor
      · intro d hd
        have hd0 : d = 0 := by omega
        subst hd0
        show ((write_step st 0 _ 0).isSome : Prop)
        unfold write_step
        rw [if_pos rfl]
        rfl
      · show serialize_graph [⟨minter, []⟩] 0 =
          ((write_step st 0 ⟨serialize_graph [⟨minter, []⟩] 0, [minter]⟩ 0).getD
            ⟨.mk "" [], []⟩).root
        unfold write_step
        rw [if_pos rfl]
        rfl
    | some c =>
      rw [init_state_present minter st hc]
      obtain ⟨h1, _, h3⟩ := deserialize_graph_spec c.root [⟨minter, []⟩]
      have h4 := h3 []
      rw [List.append_nil] at h4
      constructor
      · intro d hd
        have hd0 : d = 0 := by omega
        subst hd0
        show ((st 0).isSome : Prop)
        rw [hc]
        rfl
      · show serialize_graph (deserialize_graph c.root [⟨minter, []⟩]).1
            (deserialize_graph c.root [⟨minter, []⟩]).2 = ((st 0).getD ⟨.mk "" [], []⟩).root
        rw [h1, h4, hc]
        rfl
  | succ k ih =>
    intro st
    obtain ⟨ihpop, ihser⟩ := ih st
    rw [run_scraper_succ oracle minter k st]
    cases hc : (run_scraper oracle minter k st).store (k + 1) with
    | some c =>
      rw [step_depth_skip oracle _ (k + 1) hc]
      constructor
      · intro d hd
        rcases Nat.lt_or_ge d (k + 1) with hlt | hge
        · exact ihpop d (by omega)
        · have : d = k + 1 := by omega
          subst this
          show ((run_scraper oracle minter k st).store (k + 1)).isSome = true
          rw [hc]
          rfl
      · obtain ⟨h1, _, h3⟩ := deserialize_graph_spec c.root
          (run_scraper oracle minter k st).arena
        have h4 := h3 []
        rw [List.append_nil] at h4
        show serialize_graph (deserialize_graph c.root _).1 (deserialize_graph c.root _).2 =
          (((run_scraper oracle minter k st).store (k + 1)).getD ⟨.mk "" [], []⟩).root
        rw [h1, h4, hc]
        rfl
    | none =>
      rw [step_depth_fresh oracle _ (k + 1) hc]
      constructor
      · intro d hd
        rcases Nat.lt_or_ge d (k + 1) with hlt | hge
        · show ((write_step _ (k + 1) _ d).isSome : Prop)
          unfold write_step
          rw [if_neg (by omega)]
          exact ihpop d (by omega)
        · have : d = k + 1 := by omega
          subst this
          show ((write_step _ (k + 1) _ (k + 1)).isSome : Prop)
          unfold write_step
          rw [if_pos rfl]
          rfl
      · show serialize_graph _ _ = ((write_step _ (k + 1) _ (k + 1)).getD ⟨.mk "" [], []⟩).root
        unfold write_step
        rw [if_pos rfl]
        rfl

/-- C1.  Re-running the crawler over the checkpoint directory produced by a
completed run (checkpoints present for depths 0..max_steps) performs zero
transfer-fetch invocations and ends with a tree that is structurally
identical — same addresses, same child counts, same child order at every
level (equal `serialize_graph` readings) — to the first run's final tree. -/
theorem c1_resumability (oracle : String → FetchOutcome) (minter : String)
    (k : Nat) (st : Store) :
    (run_scraper oracle minter k (run_scraper oracle minter k st).store).fetch_count = 0 ∧
    serialize_graph
        (run_scraper oracle minter k (run_scraper oracle minter k st).store).arena
        (run_scraper oracle minter k (run_scraper oracle minter k st).store).root =
      serialize_graph (run_scraper oracle minter k st).arena
        (run_scraper oracle minter k st).root := by
  obtain ⟨hpop, hser⟩ := run_scraper_populates oracle minter k st
  obtain ⟨c0, hc0⟩ := Option.isSome_iff_exists.mp (hpop 0 (Nat.zero_le k))
  have hinit := init_state_present minter (run_scraper oracle minter k st).store hc0
  obtain ⟨h1, _, h3⟩ := deserialize_graph_spec c0.root [⟨minter, []⟩]
  have h4 := h3 []
  rw [List.append_nil] at h4
  obtain ⟨hst2, hfc2, hser2⟩ := foldl_skip_run oracle (List.range' 1 k)
    (init_state minter (run_scraper oracle minter k st).store)
    (by
      intro d hd
      obtain ⟨j, hj, rfl⟩ := List.mem_range'.mp hd
      rw [hinit]
      exact hpop (1 + 1 * j) (by omega))
  show ((List.range' 1 k).foldl (step_depth oracle)
      (init_state minter (run_scraper oracle minter k st).store)).fetch_count = 0 ∧
    serialize_graph
      ((List.range' 1 k).foldl (step_depth oracle)
        (init_state minter (run_scraper oracle minter k st).store)).arena
      ((List.range' 1 k).foldl (step_depth oracle)
        (init_state minter (run_scraper oracle minter k st).store)).root =
      serialize_graph (run_scraper oracle minter k st).arena
        (run_scraper oracle minter k st).root
  refine ⟨by rw [hfc2, hinit], ?_⟩
  rw [hser2]
  cases k with
  | zero =>
    show (match ([] : List Nat).getLast? with
      | none => serialize_graph (init_state minter (run_scraper oracle minter 0 st).store).arena
          (init_state minter (run_scraper oracle minter 0 st).store).root
      | some d => (((init_state minter (run_scraper oracle minter 0 st).store).store d).getD
          ⟨.mk "" [], []⟩).root) = _
    show serialize_graph (init_state minter (run_scraper oracle minter 0 st).store).arena
        (init_state minter (run_scraper oracle minter 0 st).store).root = _
    rw [hinit]
    show serialize_graph (deserialize_graph c0.root [⟨minter, []⟩]).1
        (deserialize_graph c0.root [⟨minter, []⟩]).2 = _
    rw [h1, h4, hser, hc0]
    rfl
  | succ m =>
    have hlast : (List.range' 1 (m + 1)).getLast? = some (m + 1) := by
      rw [List.range'_1_concat, List.getLast?_concat, Nat.add_comm 1 m]
    rw [hlast]
    show (((init_state minter (run_scraper oracle minter (m + 1) st).store).store (m + 1)).getD
        ⟨.mk "" [], []⟩).root = _
    rw [hinit, hser]

-- ### C3: behavior after the frontier empties

/-- C3 (amended).  The depth loop never stops early: when the working
frontier is empty, every remaining depth with no on-disk checkpoint is still
visited — it performs zero transfer fetches (there is nothing to expand),
writes a checkpoint carrying the unchanged tree and an empty frontier, and
is reported to the observer with `frontier_count = 0`; remaining depths that
do have a checkpoint are loaded and reported as usual (covered by the
skip-branch lemmas).  So "no fetch is attempted" holds, but fresh later
depths are not skipped — they are checkpointed and reported like any other
depth. -/
theorem c3_empty_frontier_continues (oracle : String → FetchOutcome) :
    ∀ (ds : List Nat) (s : RunState),
      s.frontier = [] → ds.Nodup → (∀ d ∈ ds, s.store d = none) →
      (ds.foldl (step_depth oracle) s).fetch_count = s.fetch_count ∧
      (ds.foldl (step_depth oracle) s).frontier = [] ∧
      (ds.foldl (step_depth oracle) s).events = s.events ++ ds.map (fun d =>
        ⟨d, serialize_graph s.arena s.root, count_total_nodes s.arena s.root, 0⟩) ∧
      (∀ d ∈ ds, (ds.foldl (step_depth oracle) s).store d =
        some ⟨serialize_graph s.arena s.root, []⟩) := by
  intro ds
  induction ds with
  | nil =>
    intro s h1 _ _
    exact ⟨rfl, h1, by simp, by simp⟩
  | cons d ds ih =>
    intro s hfr hnd hst
    have hsd : s.store d = none := hst d (List.mem_cons.mpr (Or.inl rfl))
    have hstep : step_depth oracle s d =
        { arena := s.arena, root := s.root, frontier := [],
          store := write_step s.store d ⟨serialize_graph s.arena s.root, []⟩,
          fetch_count := s.fetch_count,
          events := s.events ++
            [⟨d, serialize_graph s.arena s.root, count_total_nodes s.arena s.root, 0⟩] } := by
      rw [step_depth_fresh oracle s d hsd, hfr]
      rfl
    rw [List.foldl_cons, hstep]
    have hndtail : ds.Nodup := (List.nodup_cons.mp hnd).2
    have hdne : d ∉ ds := (List.nodup_cons.mp hnd).1
    obtain ⟨ihfc, ihfr, ihev, ihst⟩ := ih
      { arena := s.arena, root := s.root, frontier := [],
        store := write_step s.store d ⟨serialize_graph s.arena s.root, []⟩,
        fetch_count := s.fetch_count,
        events := s.events ++
          [⟨d, serialize_graph s.arena s.root, count_total_nodes s.arena s.root, 0⟩] }
      rfl hndtail
      (by
        intro e he
        show write_step s.store d _ e = none
        unfold write_step
        rw [if_neg (by rintro rfl; exact hdne he)]
        exact hst e (List.mem_cons.mpr (Or.inr he)))
    refine ⟨ihfc, ihfr, ?_, ?_⟩
    · rw [ihev]
      simp
    · intro e he
      rcases List.mem_cons.mp he with rfl | he'
      · rw [foldl_store_preserved oracle ds _ e (by intro x hx; rintro rfl; exact hdne hx)]
        show write_step s.store e _ e = _
        unfold write_step
        rw [if_pos rfl]
      · exact ihst e he'

theorem c3_witness :
    ((⟨[⟨"M", []⟩], 0, [], fun _ => none, 0, []⟩ : RunState).frontier = []) ∧
    ([1, 2] : List Nat).Nodup ∧
    (∀ d ∈ ([1, 2] : List Nat),
      (⟨[⟨"M", []⟩], 0, [], fun _ => none, 0, []⟩ : RunState).store d = none) ∧
    (([1, 2].foldl (step_depth (fun _ => FetchOutcome.exn))
        (⟨[⟨"M", []⟩], 0, [], fun _ => none, 0, []⟩ : RunState)).fetch_count =
      (⟨[⟨"M", []⟩], 0, [], fun _ => none, 0, []⟩ : RunState).fetch_count) ∧
    (([1, 2].foldl (step_depth (fun _ => FetchOutcome.exn))
        (⟨[⟨"M", []⟩], 0, [], fun _ => none, 0, []⟩ : RunState)).events =
      (⟨[⟨"M", []⟩], 0, [], fun _ => none, 0, []⟩ : RunState).events ++
        [1, 2].map (fun d =>
          ⟨d, serialize_graph [⟨"M", []⟩] 0, count_total_nodes [⟨"M", []⟩] 0, 0⟩)) := by
  have h := c3_empty_frontier_continues (fun _ => FetchOutcome.exn) [1, 2]
    ⟨[⟨"M", []⟩], 0, [], fun _ => none, 0, []⟩ rfl (by decide) (fun d _ => rfl)
  exact ⟨rfl, by decide, fun d _ => rfl, h.1, h.2.2.1⟩

/-- C3 is false as stated: with `max_steps = 2`, an empty checkpoint
directory and a fetch that always returns zero transfers, depth 1 is freshly
expanded to an empty frontier, yet depth 2 — which has no on-disk
checkpoint — is still visited: it is reported to the observer (the reported
depths are `[1, 2]`, not `[1]`) and a depth-2 checkpoint is written. -/
theorem c3_counterexample :
    ((run_scraper (fun _ => FetchOutcome.response 200 []) "M" 2 (fun _ => none)).events.map
      (fun e => e.depth) = [1, 2]) ∧
    ((fun _ => none : Store) 2 = none) ∧
    ((run_scraper (fun _ => FetchOutcome.response 200 []) "M" 2 (fun _ => none)).store 2).isSome = true := by
  exact ⟨rfl, rfl, rfl⟩
